import Mathlib

/-!
Verification development for the anime-search-api repository.

Strings from the Rust source are modelled as `String` backed by `List Char`
operations that mirror the Rust standard-library primitives used by the code
(`str::trim`, `str::starts_with`, `str::trim_end_matches('/')`, `String::replace`).
-/

/-- Whitespace predicate mirroring Rust's `char::is_whitespace` on the
characters relevant to this code base (ASCII whitespace). -/
def wsChar (c : Char) : Bool :=
  c = ' ' || c = '\t' || c = '\n' || c = '\r'

/-- Drop leading and trailing whitespace from a character list,
mirroring Rust `str::trim`. -/
def trimChars (cs : List Char) : List Char :=
  ((cs.dropWhile wsChar).reverse.dropWhile wsChar).reverse

/-- Rust `str::trim` on strings. -/
def rustTrim (s : String) : String :=
  String.mk (trimChars s.data)

/-- Mirrors Rust `str::starts_with(pat)`: `listStartsWith l pat` is true
iff `pat` is an initial segment of `l`. -/
def listStartsWith : List Char → List Char → Bool
  | _, [] => true
  | [], _ :: _ => false
  | c :: cs, p :: ps => c = p && listStartsWith cs ps

/-- Rust `str::starts_with` on strings. -/
def rustStartsWith (s pat : String) : Bool :=
  listStartsWith s.data pat.data

/-- Mirrors Rust `str::trim_end_matches('/')`: removes every trailing `'/'`. -/
def trimEndSlashesChars (cs : List Char) : List Char :=
  (cs.reverse.dropWhile (fun c => c = '/')).reverse

/-- Rust `str::trim_end_matches('/')` on strings. -/
def strip_trailing_slashes (s : String) : String :=
  String.mk (trimEndSlashesChars s.data)

/-- Branching of `normalize_xpath` (engine.rs:249-259) on the already
trimmed input: pass through expressions starting with `//`, `./` or `.//`,
prepend an extra `/` to expressions starting with a single `/`, prepend
`.//` to non-empty bare paths, return the empty string unchanged. -/
def normXpathCore (x : List Char) : List Char :=
  if listStartsWith x ['/', '/'] || listStartsWith x ['.', '/'] ||
      listStartsWith x ['.', '/', '/'] then
    x
  else if listStartsWith x ['/'] then
    '/' :: x
  else if x ≠ [] then
    '.' :: '/' :: '/' :: x
  else
    x

/-- Character-level body of `normalize_xpath` (engine.rs:246-260): the Rust
code first trims the input (`let xpath = xpath.trim()`), then branches. -/
def normalizeXpathChars (cs : List Char) : List Char :=
  normXpathCore (trimChars cs)

/-- Function `normalize_xpath` from engine.rs:246-260. -/
def normalize_xpath (xpath : String) : String :=
  String.mk (normalizeXpathChars xpath.data)

/-- Character-level body of `normalize_url` (engine.rs:339-349). -/
def normalizeUrlChars (href base : List Char) : List Char :=
  if listStartsWith href "http://".data || listStartsWith href "https://".data then
    href
  else if listStartsWith href ['/', '/'] then
    "https:".data ++ href
  else if listStartsWith href ['/'] then
    trimEndSlashesChars base ++ href
  else
    trimEndSlashesChars base ++ '/' :: href

/-- Function `normalize_url` from engine.rs:339-349: resolve an extracted href
against the rule's base URL. -/
def normalize_url (href base_url : String) : String :=
  String.mk (normalizeUrlChars href.data base_url.data)

/-- Character-level URL-resolution policy transcribed from the spec's words
(§4.1 "URL resolution policy"): already-absolute (`http://`/`https://`)
unchanged; protocol-relative (`//...`) prefixed `https:`; root-relative
(`/path`) appended to the base with trailing slashes stripped; otherwise
base with trailing slashes stripped, then `/`, then the href. -/
def specResolveChars (href base : List Char) : List Char :=
  if listStartsWith href "http://".data || listStartsWith href "https://".data then
    href
  else if listStartsWith href ['/', '/'] then
    "https:".data ++ href
  else if listStartsWith href ['/'] then
    trimEndSlashesChars base ++ href
  else
    trimEndSlashesChars base ++ '/' :: href

/-- URL-resolution policy as worded by the spec, for comparison against
the implementation `normalize_url`. -/
def spec_resolve (href base_url : String) : String :=
  String.mk (specResolveChars href.data base_url.data)

/-- Test `starts_with("http://") || starts_with("https://")`, the "absolute URL"
test used by the spec's testable properties. -/
def startsWithHttp (s : String) : Bool :=
  rustStartsWith s "http://" || rustStartsWith s "https://"

/-!
Data model.  The repository declares these types in `src/types.rs`, which is
not part of the provided sources; the shapes below are modelled from the
spec (§3 data model, §6 wire format) and from their uses in `core.rs`,
`engine.rs` and `rules.rs`.
-/

/-- Modelled from the spec: `Rule` (types.rs, absent from the sources) — one
searchable source: request shape, selectors, display metadata (§3). -/
structure Rule where
  name : String
  base_url : String
  search_url : String
  use_post : Bool
  search_list : String
  search_name : String
  search_result : String
  chapter_roads : String
  chapter_result : String
  color : String
  tags : List String
  version : String
deriving DecidableEq, Repr

/-- Modelled from the spec: `Episode` (types.rs, absent from the sources) —
one playable unit, name and absolute URL (§3). -/
structure Episode where
  name : String
  url : String
deriving DecidableEq, Repr

/-- Modelled from the spec: `EpisodeRoad` (types.rs, absent from the
sources) — one play-source group: optional label and its episodes (§3). -/
structure EpisodeRoad where
  name : Option String
  episodes : List Episode
deriving DecidableEq, Repr

/-- Modelled from the spec: `SearchResultItem` (types.rs, absent from the
sources) — one matched title (§3); `parse_search_results_xpath` constructs
it with `tags: None, episodes: None` (engine.rs:234-239). -/
structure SearchResultItem where
  name : String
  url : String
  tags : Option (List String)
  episodes : Option (List EpisodeRoad)
deriving DecidableEq, Repr

/-- Modelled from the spec: `PlatformSearchResult` (types.rs, absent from
the sources) — outcome of one rule's search (§3); `count` is read by
core.rs:79. -/
structure PlatformSearchResult where
  count : Nat
  items : List SearchResultItem
  error : Option String
deriving DecidableEq, Repr

/-- Modelled from the spec: `PlatformSearchResult::with_items`
(engine.rs:14) — a successful result carrying `items`. -/
def PlatformSearchResult.with_items (items : List SearchResultItem) : PlatformSearchResult :=
  { count := items.length, items := items, error := none }

/-- Modelled from the spec: `PlatformSearchResult::with_error`
(engine.rs:17) — a failed result carrying only an error message. -/
def PlatformSearchResult.with_error (msg : String) : PlatformSearchResult :=
  { count := 0, items := [], error := some msg }

/-!
Episode extraction (`parse_episodes_xpath`, engine.rs:100-184).  The DOM and
XPath evaluation are the external structural-evaluation capability (§6); a
road node is abstracted to the ordered list of episode nodes its relativized
`chapter_result` query returns, each node carrying its text content and
optional `href` attribute.  A road whose query fails or whose context cannot
be set contributes no episodes, which the loop treats exactly like an empty
node list.
-/

/-- One episode node as seen by the loop body at engine.rs:155-168:
its text content and its optional `href` attribute. -/
structure EpNode where
  content : String
  href : Option String
deriving DecidableEq, Repr

/-- The inner loop at engine.rs:155-168: trim the node text for the name,
read the `href` attribute (empty when absent), drop entries with an empty
name or href, resolve the href against the derived base URL. -/
def episodesOfRoad (urlBase : String) (eps : List EpNode) : List Episode :=
  eps.filterMap (fun e =>
    let name := rustTrim e.content
    let href := e.href.getD ""
    if name = "" || href = "" then none
    else some { name := name, url := normalize_url href urlBase })

/-- The road loop at engine.rs:130-181, indexed from `start`:
a road with no surviving episodes is skipped; an emitted road is labeled
`"线路{index+1}"` exactly when the total number of matched road nodes
(`totalRoads`) exceeds one. -/
def parse_episodes_go (totalRoads : Nat) (urlBase : String) :
    Nat → List (List EpNode) → List EpisodeRoad
  | _, [] => []
  | index, rn :: rest =>
    let episodes := episodesOfRoad urlBase rn
    (if episodes ≠ [] then
      [{ name := if totalRoads > 1 then some ("线路" ++ toString (index + 1)) else none,
         episodes := episodes }]
     else []) ++ parse_episodes_go totalRoads urlBase (index + 1) rest

/-- Function `parse_episodes_xpath` from engine.rs:100-184, over the abstracted road
node list. -/
def parse_episodes_xpath (roadNodes : List (List EpNode)) (urlBase : String) :
    List EpisodeRoad :=
  parse_episodes_go roadNodes.length urlBase 0 roadNodes

/-!
Episode attachment (`execute_search_with_episodes`, engine.rs:60-84).
The per-item network fetch is abstracted to a function from the item index
to the fetched road list (`none` models a failed fetch, whose error is
swallowed at engine.rs:76-78).
-/

/-- The mutable loop at engine.rs:69-80: for indices below `maxItems`,
fetch episodes and attach them when the fetch succeeded with a non-empty
list; later items are left untouched. -/
def attachGo (fetched : Nat → Option (List EpisodeRoad)) (maxItems : Nat) :
    Nat → List SearchResultItem → List SearchResultItem
  | _, [] => []
  | i, item :: rest =>
    (if i < maxItems then
      match fetched i with
      | some eps => if eps ≠ [] then { item with episodes := some eps } else item
      | none => item
    else item) :: attachGo fetched maxItems (i + 1) rest

/-- Function `execute_search_with_episodes` from engine.rs:60-84, restricted to its
episode-attachment phase: when the rule declares both chapter selectors,
episode extraction runs for at most the first `5.min(items.len())` items. -/
def attach_episodes (rule : Rule) (items : List SearchResultItem)
    (fetched : Nat → Option (List EpisodeRoad)) : List SearchResultItem :=
  if rule.chapter_roads ≠ "" ∧ rule.chapter_result ≠ "" then
    attachGo fetched (min 5 items.length) 0 items
  else
    items

/-!
Request construction (`execute_search`, engine.rs:33-58).  The outbound HTTP
capability is external (§6); the model captures the request the code builds:
method, target URL, form fields and `Referer` header.  `url::Url::parse` and
`query_pairs` are the external URL capability, modelled below for
authority-based (`scheme://host...`) URLs, the only shape the search URLs of
this engine take; `urlencoding::encode` is modelled byte-for-byte.
-/

/-- UTF-8 encoding of one code point, as the byte values Rust iterates over. -/
def utf8Bytes (c : Char) : List Nat :=
  let n := c.toNat
  if n < 0x80 then [n]
  else if n < 0x800 then [0xC0 + n / 0x40, 0x80 + n % 0x40]
  else if n < 0x10000 then
    [0xE0 + n / 0x1000, 0x80 + (n / 0x40) % 0x40, 0x80 + n % 0x40]
  else
    [0xF0 + n / 0x40000, 0x80 + (n / 0x1000) % 0x40, 0x80 + (n / 0x40) % 0x40,
     0x80 + n % 0x40]

/-- Uppercase hexadecimal digit, as emitted by `urlencoding::encode`. -/
def hexDigitChar (n : Nat) : Char :=
  if n < 10 then Char.ofNat ('0'.toNat + n) else Char.ofNat ('A'.toNat + n - 10)

/-- Bytes kept verbatim by `urlencoding::encode`: ASCII alphanumerics and
`-`, `_`, `.`, `~`. -/
def isUrlSafeChar (c : Char) : Bool :=
  c.isAlphanum || c = '-' || c = '_' || c = '.' || c = '~'

/-- Model of `urlencoding::encode` at the character level: safe characters pass
through, every other character is percent-encoded byte by byte. -/
def encodeOneChar (c : Char) : List Char :=
  if isUrlSafeChar c then [c]
  else ((utf8Bytes c).map (fun b => ['%', hexDigitChar (b / 16), hexDigitChar (b % 16)])).flatten

/-- See `encodeOneChar`; the whole input, character by character. -/
def urlencodeChars (cs : List Char) : List Char :=
  (cs.map encodeOneChar).flatten

/-- Worker for `replaceAll`: the last argument counts characters of a
just-matched pattern occurrence still to be skipped. -/
def replaceAllGo (pat rep : List Char) : List Char → Nat → List Char
  | [], _ => []
  | _ :: cs, k + 1 => replaceAllGo pat rep cs k
  | c :: cs, 0 =>
    if pat.length ≠ 0 && listStartsWith (c :: cs) pat then
      rep ++ replaceAllGo pat rep cs (pat.length - 1)
    else
      c :: replaceAllGo pat rep cs 0

/-- Rust `str::replace(pat, rep)`: replace every non-overlapping occurrence
of `pat`, scanning left to right. -/
def replaceAll (cs pat rep : List Char) : List Char :=
  replaceAllGo pat rep cs 0

/-- The templated search URL of engine.rs:35: substitute the percent-encoded
keyword for the literal `@keyword` token in `rule.search_url`. -/
def templated_search_url (rule : Rule) (keyword : String) : String :=
  String.mk (replaceAll rule.search_url.data "@keyword".data (urlencodeChars keyword.data))

/-- Components of a parsed absolute URL as exposed by the external `url`
crate: `scheme()`, `host_str()` (host without the port), `port`, `path()`
(normalized to `"/"` when empty) and the raw query string. -/
structure ParsedUrl where
  scheme : String
  host : Option String
  port : Option Nat
  path : String
  query : Option String
deriving DecidableEq, Repr

/-- Split a character list at the first character satisfying `p`; the
second component is `none` when no such character occurs. -/
def splitFirst (p : Char → Bool) : List Char → List Char × Option (List Char)
  | [] => ([], none)
  | c :: rest =>
    if p c then ([], some rest)
    else
      let r := splitFirst p rest
      (c :: r.1, r.2)

/-- Split a character list on every occurrence of `sep`. -/
def splitAllChar (sep : Char) : List Char → List (List Char)
  | [] => [[]]
  | c :: rest =>
    let r := splitAllChar sep rest
    if c = sep then [] :: r
    else
      match r with
      | [] => [[c]]
      | a :: more => (c :: a) :: more

/-- Parse a run of decimal digits as a port number the way `url` does:
empty means no port, non-digits or values above 65535 are a parse error. -/
def parsePort (cs : List Char) : Option (Option Nat) :=
  if cs = [] then some none
  else if cs.all Char.isDigit then
    let n := cs.foldl (fun acc c => acc * 10 + (c.toNat - '0'.toNat)) 0
    if n < 65536 then some (some n) else none
  else none

/-- Model of `url::Url::parse` for authority-based URLs
(`scheme://host[:port][/path][?query][#fragment]`): scheme and host are
lowercased, an empty path reads back as `"/"`, an empty or invalid host is
a parse error.  Non-authority URLs (no `://`) are outside the model and
yield `none`. -/
def urlParseChars (cs : List Char) : Option ParsedUrl :=
  let s := splitFirst (fun c => c = ':') cs
  match s.2 with
  | none => none
  | some rest =>
    if s.1 ≠ [] ∧ s.1.all (fun c => c.isAlphanum || c = '+' || c = '-' || c = '.') ∧
        listStartsWith rest ['/', '/'] then
      let auth := (rest.drop 2).takeWhile (fun c => !(c = '/' || c = '?' || c = '#'))
      let tail := (rest.drop 2).dropWhile (fun c => !(c = '/' || c = '?' || c = '#'))
      let hp := splitFirst (fun c => c = ':') auth
      match parsePort (hp.2.getD []) with
      | none => none
      | some port =>
        if hp.1 = [] then none
        else
          let pathRaw := tail.takeWhile (fun c => !(c = '?' || c = '#'))
          let afterPath := tail.dropWhile (fun c => !(c = '?' || c = '#'))
          let query := match afterPath with
            | '?' :: q => some (String.mk (q.takeWhile (fun c => !(c = '#'))))
            | _ => none
          some { scheme := String.mk (s.1.map Char.toLower),
                 host := some (String.mk (hp.1.map Char.toLower)),
                 port := port,
                 path := if pathRaw = [] then "/" else String.mk pathRaw,
                 query := query }
    else none

/-- Parse a URL string (model of `url::Url::parse`, see `urlParseChars`). -/
def urlParse (s : String) : Option ParsedUrl :=
  urlParseChars s.data

/-- Value of a hexadecimal digit character, or 16 for a non-digit. -/
def hexVal (c : Char) : Nat :=
  if '0' ≤ c ∧ c ≤ '9' then c.toNat - '0'.toNat
  else if 'a' ≤ c ∧ c ≤ 'f' then c.toNat - 'a'.toNat + 10
  else if 'A' ≤ c ∧ c ≤ 'F' then c.toNat - 'A'.toNat + 10
  else 16

/-- Percent-decoding as done by `form_urlencoded`: `%XY` with two hex digits
becomes the byte value, anything else passes through. -/
def percentDecode : List Char → List Char
  | [] => []
  | '%' :: a :: b :: rest =>
    if hexVal a < 16 && hexVal b < 16 then
      Char.ofNat (16 * hexVal a + hexVal b) :: percentDecode rest
    else '%' :: percentDecode (a :: b :: rest)
  | c :: rest => c :: percentDecode rest

/-- Form-component decoding: `+` means space, then percent-decode. -/
def decodeFormComponent (cs : List Char) : String :=
  String.mk (percentDecode (cs.map (fun c => if c = '+' then ' ' else c)))

/-- Model of `url::Url::query_pairs()`: split the query on `&`, skip empty
segments, split each segment at the first `=` (missing value reads as
empty), and form-decode both sides. -/
def queryPairsChars (q : List Char) : List (String × String) :=
  (splitAllChar '&' q).filterMap (fun seg =>
    if seg = [] then none
    else
      let nv := splitFirst (fun c => c = '=') seg
      some (decodeFormComponent nv.1, decodeFormComponent (nv.2.getD [])))

/-- Insert one key/value pair into an association list the way
`HashMap::insert` does: overwrite the value of an existing key, otherwise
add the pair. -/
def upsert (m : List (String × String)) (kv : String × String) : List (String × String) :=
  if m.any (fun p => p.1 = kv.1) then
    m.map (fun p => if p.1 = kv.1 then (p.1, kv.2) else p)
  else m ++ [kv]

/-- The `HashMap<String, String>` collected at engine.rs:42-45, represented
as an association list in insertion order (the map's own iteration order is
unspecified; only its contents are observable in the request). -/
def collectPairs (l : List (String × String)) : List (String × String) :=
  l.foldl upsert []

/-- The outbound request `execute_search` hands to the HTTP capability:
either a GET of a URL or a form POST of fields to a URL, each with an
optional `Referer` header. -/
inductive HttpRequest where
  | get (url : String) (referer : Option String)
  | postForm (url : String) (form : List (String × String)) (referer : Option String)
deriving DecidableEq, Repr

/-- Function `execute_search` from engine.rs:33-58, restricted to the request it
builds: template the keyword into `search_url`; with `use_post`, parse the
templated URL (a parse failure aborts the search with an error, modelled as
`none`), collect its query pairs into a map, and POST them to
`scheme://host_str path` — `host_str()` carries no port — with the rule's
`base_url` as Referer; otherwise GET the templated URL with the same
Referer. -/
def execute_search_request (rule : Rule) (keyword : String) : Option HttpRequest :=
  let search_url := templated_search_url rule keyword
  if rule.use_post then
    match urlParse search_url with
    | none => none
    | some uri =>
      let base_url := uri.scheme ++ "://" ++ uri.host.getD "" ++ uri.path
      some (HttpRequest.postForm base_url
        (collectPairs (queryPairsChars (uri.query.getD "").data))
        (some rule.base_url))
  else
    some (HttpRequest.get search_url (some rule.base_url))

/-!
Parallel search orchestrator (`execute_parallel_search`, core.rs:38-115).

Each spawned task performs its search privately and then touches shared
state exactly twice: the atomic `completed.fetch_add(1)` (core.rs:69) and
the channel send of its one event (core.rs:99).  An execution is therefore
determined by the per-rule search outcomes together with an interleaving of
these two atomic actions per task; the coordinating task joins every handle
before sending `Done` (core.rs:106-112).  `tx.send` failures on the per-rule
and `Done` sends are ignored; the model below covers the executions in which
the receiver stays alive, plus the early return of core.rs:51-53 when even
the `Init` send fails.
-/

/-- Modelled from the spec: `StreamProgress` (types.rs, absent from the
sources) — completion counter snapshot (§3). -/
structure StreamProgress where
  completed : Nat
  total : Nat
deriving DecidableEq, Repr

/-- Modelled from the spec: `StreamResult` (types.rs, absent from the
sources) — the per-rule payload built at core.rs:80-90. -/
structure StreamResult where
  name : String
  color : String
  tags : List String
  items : List SearchResultItem
  error : Option String
deriving DecidableEq, Repr

/-- Modelled from the spec: `StreamEvent` (types.rs, absent from the
sources) — tagged protocol event (§3, §6): `Init{total}`,
`Progress{progress}`, `Result{progress, result}`, `Done{done:true}`. -/
inductive StreamEvent where
  | init (total : Nat)
  | progress (progress : StreamProgress)
  | result (progress : StreamProgress) (result : StreamResult)
  | done
deriving DecidableEq, Repr

/-- The event one finished task sends (core.rs:79-97): a `Result` event when
the search found items or failed (color forced to `"red"` on failure), and
a bare `Progress` event on a silent empty success. -/
def mkTaskEvent (rule : Rule) (res : PlatformSearchResult) (current total : Nat) :
    StreamEvent :=
  if res.count > 0 || res.error.isSome then
    StreamEvent.result { completed := current, total := total }
      { name := rule.name,
        color := if res.error.isSome then "red" else rule.color,
        tags := rule.tags,
        items := res.items,
        error := res.error }
  else
    StreamEvent.progress { completed := current, total := total }

/-- One atomic shared-state action of task `i`: its counter increment or
its event send. -/
inductive Act where
  | inc (i : Nat)
  | send (i : Nat)
deriving DecidableEq, Repr

/-- Task index of an action. -/
def Act.idx : Act → Nat
  | Act.inc i => i
  | Act.send i => i

/-- Whether an action is a send. -/
def Act.isSend : Act → Bool
  | Act.send _ => true
  | _ => false

/-- Whether an action is an increment. -/
def Act.isInc : Act → Bool
  | Act.inc _ => true
  | _ => false

/-- Run the interleaved task actions: `counter` is the shared atomic
counter, `vals i` the local `current` of task `i` once it has executed its
`fetch_add` (core.rs:69).  A send delivers `mkTaskEvent` for the task's rule
and outcome at its recorded counter value. -/
def runTasks (rules : List Rule) (results : List PlatformSearchResult) (total : Nat) :
    List Act → Nat → (Nat → Option Nat) → List StreamEvent
  | [], _, _ => []
  | Act.inc i :: rest, counter, vals =>
    runTasks rules results total rest (counter + 1)
      (fun j => if j = i then some (counter + 1) else vals j)
  | Act.send i :: rest, counter, vals =>
    (match rules[i]?, results[i]?, vals i with
     | some rule, some res, some cur => [mkTaskEvent rule res cur total]
     | _, _, _ => []) ++ runTasks rules results total rest counter vals

/-- Observable outcome of one orchestrator invocation: the delivered event
sequence and the number of per-rule tasks that were spawned. -/
structure OrchestratorRun where
  events : List StreamEvent
  spawned : Nat
deriving DecidableEq, Repr

/-- Function `execute_parallel_search` from core.rs:38-115: send `Init` —
if that very first send fails because the receiver is gone, return at once
without spawning anything (core.rs:51-53); otherwise spawn one task per
rule, let their actions interleave as `sched` dictates, join them all, and
send `Done`. -/
def execute_parallel_search (rules : List Rule) (results : List PlatformSearchResult)
    (initDelivered : Bool) (sched : List Act) : OrchestratorRun :=
  if initDelivered then
    { events := StreamEvent.init rules.length ::
        runTasks rules results rules.length sched 0 (fun _ => none) ++ [StreamEvent.done],
      spawned := rules.length }
  else
    { events := [], spawned := 0 }

/-- In `sched`, the first action of task `i` (among its increment and its
send) is the increment. -/
def firstIsInc (i : Nat) : List Act → Bool
  | [] => false
  | a :: rest =>
    if a = Act.inc i then true
    else if a = Act.send i then false
    else firstIsInc i rest

/-- A well-formed interleaving of `total` tasks: each task increments once
and sends once, incrementing before sending, and no other actions occur.
Every real execution of the spawned tasks yields such a schedule. -/
def validSchedB (total : Nat) (sched : List Act) : Bool :=
  ((List.range total).all (fun i =>
    sched.count (Act.inc i) == 1 && sched.count (Act.send i) == 1 &&
      firstIsInc i sched)) &&
  sched.all (fun a => a.idx < total)

/-- The `progress.completed` values carried by a list of events, in
emission order. -/
def completedValues (evs : List StreamEvent) : List Nat :=
  evs.filterMap (fun e =>
    match e with
    | StreamEvent.progress p => some p.completed
    | StreamEvent.result p _ => some p.completed
    | _ => none)

/-- Whether an event is one of the per-rule events between `Init` and
`Done`. -/
def isMidEvent : StreamEvent → Bool
  | StreamEvent.progress _ => true
  | StreamEvent.result _ _ => true
  | _ => false

/-- The `progress.total` field of a per-rule event. -/
def eventTotal : StreamEvent → Option Nat
  | StreamEvent.progress p => some p.total
  | StreamEvent.result p _ => some p.total
  | _ => none

/-- Lookup-safety of a schedule with respect to the current task-local
values: every send in the schedule is for an in-range task whose counter
value is already recorded or whose increment occurs earlier in the
schedule. -/
def SendsSafe (rules : List Rule) (results : List PlatformSearchResult)
    (sched : List Act) (vals : Nat → Option Nat) : Prop :=
  ∀ i l1 l2, sched = l1 ++ Act.send i :: l2 →
    i < rules.length ∧ i < results.length ∧ ((vals i).isSome = true ∨ Act.inc i ∈ l1)

/-- Keys of the pending-task bookkeeping list. -/
def keysOf (pend : List (Nat × Nat)) : List Nat :=
  pend.map Prod.fst

/-- Mid-run invariant of the interleaved execution: `pend` lists the tasks
that have incremented the counter (recording which value) but not yet sent,
`sched` holds exactly the remaining actions. -/
def RunInv (rules : List Rule) (results : List PlatformSearchResult)
    (sched : List Act) (vals : Nat → Option Nat) (pend : List (Nat × Nat)) : Prop :=
  (∀ p ∈ pend, vals p.1 = some p.2) ∧
  (keysOf pend).Nodup ∧
  (∀ i l1 l2, sched = l1 ++ Act.send i :: l2 →
      i < rules.length ∧ i < results.length ∧ (i ∈ keysOf pend ∨ Act.inc i ∈ l1)) ∧
  (∀ i ∈ keysOf pend, sched.count (Act.send i) = 1) ∧
  (∀ i, sched.count (Act.send i) ≤ 1 ∧ sched.count (Act.inc i) ≤ 1) ∧
  (∀ i, Act.inc i ∈ sched → Act.send i ∈ sched ∧ i ∉ keysOf pend) ∧
  (∀ i, Act.send i ∈ sched → i ∈ keysOf pend ∨ Act.inc i ∈ sched)

/-- Indices of the send actions of a schedule, in order. -/
def sendIdxs (sched : List Act) : List Nat :=
  sched.filterMap (fun a => match a with | Act.send i => some i | _ => none)

/-- Indices of the increment actions of a schedule, in order. -/
def incIdxs (sched : List Act) : List Nat :=
  sched.filterMap (fun a => match a with | Act.inc i => some i | _ => none)

/-!
Concrete instances used to exercise the model on closed inputs.
-/

/-- A concrete rule with the given name, search URL, base URL, method and
chapter selectors. -/
def testRule (nm surl burl : String) (post : Bool) (roads chres : String) : Rule :=
  { name := nm, base_url := burl, search_url := surl, use_post := post,
    search_list := "//div", search_name := "a", search_result := "a",
    chapter_roads := roads, chapter_result := chres, color := "blue",
    tags := [], version := "1" }

/-- A concrete search result item as `parse_search_results_xpath` builds
them: no tags, no episodes. -/
def testItem (nm u : String) : SearchResultItem :=
  { name := nm, url := u, tags := none, episodes := none }

/-- Two concrete GET rules. -/
def rules2 : List Rule :=
  [testRule "s0" "https://a.test/s?wd=@keyword" "https://a.test" false "" "",
   testRule "s1" "https://b.test/s?wd=@keyword" "https://b.test" false "" ""]

/-- Two concrete silent-success outcomes. -/
def resultsOk2 : List PlatformSearchResult :=
  [PlatformSearchResult.with_items [], PlatformSearchResult.with_items []]

/-- One silent success and one failed search. -/
def resultsErr2 : List PlatformSearchResult :=
  [PlatformSearchResult.with_items [], PlatformSearchResult.with_error "boom"]

/-- The inverted interleaving: both tasks increment before either sends,
and the later increment sends first. -/
def schedSwap : List Act := [Act.inc 0, Act.inc 1, Act.send 1, Act.send 0]

/-- The sequential interleaving. -/
def schedSeq : List Act := [Act.inc 0, Act.send 0, Act.inc 1, Act.send 1]

/-- A POST rule whose search URL carries an explicit port. -/
def c6rule : Rule :=
  testRule "s" "http://h.test:8080/s?wd=@keyword" "http://h.test:8080" true "" ""

/-- A rule declaring both chapter selectors. -/
def rule7 : Rule := testRule "s7" "" "" false "r" "c"

/-- Six items, all without episodes. -/
def items6 : List SearchResultItem :=
  [testItem "n1" "u1", testItem "n2" "u2", testItem "n3" "u3",
   testItem "n4" "u4", testItem "n5" "u5", testItem "n6" "u6"]

/-- An episode fetch that always succeeds with one non-empty road. -/
def fetch6 : Nat → Option (List EpisodeRoad) :=
  fun _ => some [{ name := none, episodes := [{ name := "e", url := "u" }] }]

/-- Two matched road nodes, the second of which has no valid episodes. -/
def c3roads : List (List EpNode) :=
  [[{ content := "EP1", href := some "/v/1" }], []]

/-- Two matched road nodes, both with valid episodes. -/
def c3wroads : List (List EpNode) :=
  [[{ content := "EP1", href := some "/v/1" }],
   [{ content := "EP2", href := some "/v/2" }]]

/-! Helper lemmas about the string primitives. -/

theorem dropWhile_head?_false {p : Char → Bool} :
    ∀ (l : List Char) (c : Char), (l.dropWhile p).head? = some c → p c = false := by
  intro l
  induction l with
  | nil => intro c h; simp [List.dropWhile] at h
  | cons a t ih =>
    intro c h
    by_cases hp : p a
    · exact ih c (by simpa [List.dropWhile, hp] using h)
    · rw [List.dropWhile_cons_of_neg hp] at h
      simp at h
      rw [← h]
      exact Bool.eq_false_iff.mpr hp

theorem dropWhile_eq_self_of_head? {p : Char → Bool} (l : List Char)
    (h : ∀ c, l.head? = some c → p c = false) : l.dropWhile p = l := by
  cases l with
  | nil => simp
  | cons a t =>
    have hpa : p a = false := h a rfl
    exact List.dropWhile_cons_of_neg (by simp [hpa])

theorem exists_append_dropWhile {p : Char → Bool} (l : List Char) :
    ∃ l1, l = l1 ++ l.dropWhile p := by
  induction l with
  | nil => exact ⟨[], rfl⟩
  | cons a t ih =>
    by_cases hp : p a
    · obtain ⟨l1, h1⟩ := ih
      exact ⟨a :: l1, by simp [List.dropWhile_cons_of_pos hp, ← h1]⟩
    · exact ⟨[], by simp [List.dropWhile_cons_of_neg hp]⟩

theorem trimChars_reverse_eq (l : List Char) :
    (trimChars l).reverse = (l.dropWhile wsChar).reverse.dropWhile wsChar := by
  simp [trimChars]

theorem trimChars_getLast?_false (l : List Char) (c : Char)
    (h : (trimChars l).getLast? = some c) : wsChar c = false := by
  have hrev : (trimChars l).reverse.head? = some c := by
    rw [List.head?_reverse]; exact h
  rw [trimChars_reverse_eq] at hrev
  exact dropWhile_head?_false _ c hrev

theorem trimChars_head?_false (l : List Char) (c : Char)
    (h : (trimChars l).head? = some c) : wsChar c = false := by
  obtain ⟨l1, h1⟩ := exists_append_dropWhile (p := wsChar) (l.dropWhile wsChar).reverse
  have hpre : l.dropWhile wsChar = trimChars l ++ l1.reverse := by
    have := congrArg List.reverse h1
    simpa [trimChars] using this
  have hne : trimChars l ≠ [] := by
    intro hnil; rw [hnil] at h; simp at h
  have hd : (l.dropWhile wsChar).head? = some c := by
    rw [hpre]
    cases htl : trimChars l with
    | nil => exact absurd htl hne
    | cons x xs =>
      rw [htl] at h
      simp at h
      simp [h]
  exact dropWhile_head?_false _ c hd

theorem trimChars_eq_self (l : List Char)
    (h1 : ∀ c, l.head? = some c → wsChar c = false)
    (h2 : ∀ c, l.getLast? = some c → wsChar c = false) : trimChars l = l := by
  unfold trimChars
  rw [dropWhile_eq_self_of_head? l h1]
  rw [dropWhile_eq_self_of_head? l.reverse (fun c hc => h2 c (by rwa [List.head?_reverse] at hc))]
  exact List.reverse_reverse l

theorem trimChars_idem (l : List Char) : trimChars (trimChars l) = trimChars l :=
  trimChars_eq_self _ (trimChars_head?_false l) (trimChars_getLast?_false l)

theorem listStartsWith_append (l p m : List Char)
    (h : listStartsWith l p = true) : listStartsWith (l ++ m) p = true := by
  induction p generalizing l with
  | nil => simp [listStartsWith]
  | cons x xs ih =>
    cases l with
    | nil => simp [listStartsWith] at h
    | cons c cs =>
      simp [listStartsWith] at h ⊢
      exact ⟨h.1, ih cs h.2⟩

theorem listStartsWith_cancel (x y z : List Char) :
    listStartsWith (x ++ y) (x ++ z) = listStartsWith y z := by
  induction x with
  | nil => rfl
  | cons c cs ih => simp [listStartsWith, ih]

theorem listStartsWith_shape (l : List Char) (p : List Char)
    (h : listStartsWith l p = true) : ∃ r, l = p ++ r := by
  induction p generalizing l with
  | nil => exact ⟨l, rfl⟩
  | cons x xs ih =>
    cases l with
    | nil => simp [listStartsWith] at h
    | cons c cs =>
      simp [listStartsWith] at h
      obtain ⟨r, hr⟩ := ih cs h.2
      exact ⟨r, by simp [h.1, hr]⟩

theorem getLast?_cons_of_ne_nil (a : Char) (t : List Char) (h : t ≠ []) :
    (a :: t).getLast? = t.getLast? := by
  cases t with
  | nil => exact absurd rfl h
  | cons b u => simp [List.getLast?_cons_cons]

theorem normXpathCore_trimmed_fixed (x : List Char) (hx : trimChars x = x) :
    trimChars (normXpathCore x) = normXpathCore x := by
  have hhead := fun c h => trimChars_head?_false x c (by rwa [hx])
  have hlast := fun c h => trimChars_getLast?_false x c (by rwa [hx])
  unfold normXpathCore
  split
  · exact trimChars_eq_self x hhead hlast
  · split
    · rename_i h1 h2
      obtain ⟨r, hr⟩ := listStartsWith_shape x ['/'] h2
      apply trimChars_eq_self
      · intro c hc
        simp at hc
        simp [← hc, wsChar]
      · intro c hc
        apply hlast c
        rw [← hc]
        symm
        apply getLast?_cons_of_ne_nil
        intro hnil
        rw [hnil] at hr
        simp at hr
    · split
      · rename_i h1 h2 h3
        apply trimChars_eq_self
        · intro c hc
          simp at hc
          simp [← hc, wsChar]
        · intro c hc
          apply hlast c
          rw [← hc]
          symm
          rw [getLast?_cons_of_ne_nil _ _ (by simp [h3])]
          rw [getLast?_cons_of_ne_nil _ _ (by simp [h3])]
          exact getLast?_cons_of_ne_nil _ _ h3
      · exact trimChars_eq_self x hhead hlast

theorem normXpathCore_stable (t : List Char) :
    normXpathCore (normXpathCore t) = normXpathCore t := by
  by_cases h1 : (listStartsWith t ['/', '/'] || listStartsWith t ['.', '/'] ||
      listStartsWith t ['.', '/', '/']) = true
  · have hinner : normXpathCore t = t := by unfold normXpathCore; rw [if_pos h1]
    rw [hinner, hinner]
  · by_cases h2 : listStartsWith t ['/'] = true
    · have hinner : normXpathCore t = '/' :: t := by
        unfold normXpathCore; rw [if_neg h1, if_pos h2]
      rw [hinner]
      obtain ⟨r, hr⟩ := listStartsWith_shape t ['/'] h2
      have hcond : listStartsWith ('/' :: t) ['/', '/'] = true := by
        rw [hr]; simp [listStartsWith]
      unfold normXpathCore
      rw [if_pos (by simp [hcond])]
    · by_cases h3 : t = []
      · subst h3; decide
      · have hinner : normXpathCore t = '.' :: '/' :: '/' :: t := by
          unfold normXpathCore; rw [if_neg h1, if_neg h2, if_pos h3]
        rw [hinner]
        have hcond : listStartsWith ('.' :: '/' :: '/' :: t) ['.', '/'] = true := by
          simp [listStartsWith]
        unfold normXpathCore
        rw [if_pos (by simp [hcond])]

theorem normalizeXpathChars_idem (cs : List Char) :
    normalizeXpathChars (normalizeXpathChars cs) = normalizeXpathChars cs := by
  unfold normalizeXpathChars
  rw [normXpathCore_trimmed_fixed (trimChars cs) (trimChars_idem cs)]
  exact normXpathCore_stable (trimChars cs)

theorem listStartsWith_refl (p : List Char) : listStartsWith p p = true := by
  induction p with
  | nil => rfl
  | cons c cs ih => simp [listStartsWith, ih]

theorem listStartsWith_of_eq_append (x p r : List Char) (h : x = p ++ r) :
    listStartsWith x p = true := by
  rw [h]; exact listStartsWith_append p p r (listStartsWith_refl p)

theorem lsw_long_short (x : List Char) (h : listStartsWith x ['.', '/', '/'] = true) :
    listStartsWith x ['.', '/'] = true := by
  obtain ⟨r, hr⟩ := listStartsWith_shape x _ h
  exact listStartsWith_of_eq_append x ['.', '/'] ('/' :: r) (by simpa using hr)

theorem lsw_slashslash_slash (x : List Char) (h : listStartsWith x ['/', '/'] = true) :
    listStartsWith x ['/'] = true := by
  obtain ⟨r, hr⟩ := listStartsWith_shape x _ h
  exact listStartsWith_of_eq_append x ['/'] ('/' :: r) (by simpa using hr)

theorem normXpathCore_pass (x : List Char)
    (h : listStartsWith x ['/', '/'] = true ∨ listStartsWith x ['.', '/'] = true) :
    normXpathCore x = x := by
  unfold normXpathCore
  rcases h with h | h <;> rw [if_pos (by simp [h])]

theorem normXpathCore_rooted (x : List Char)
    (h1 : listStartsWith x ['/', '/'] = false)
    (h2 : listStartsWith x ['.', '/'] = false)
    (h3 : listStartsWith x ['/'] = true) :
    normXpathCore x = '/' :: x := by
  have h4 : listStartsWith x ['.', '/', '/'] = false := by
    by_contra hc
    simp only [Bool.not_eq_false] at hc
    rw [lsw_long_short x hc] at h2
    exact absurd h2 (by decide)
  unfold normXpathCore
  rw [if_neg (by simp [h1, h2, h4]), if_pos h3]

theorem normXpathCore_bare (x : List Char)
    (h2 : listStartsWith x ['.', '/'] = false)
    (h3 : listStartsWith x ['/'] = false)
    (hne : x ≠ []) :
    normXpathCore x = '.' :: '/' :: '/' :: x := by
  have h1 : listStartsWith x ['/', '/'] = false := by
    by_contra hc
    simp only [Bool.not_eq_false] at hc
    rw [lsw_slashslash_slash x hc] at h3
    exact absurd h3 (by decide)
  have h4 : listStartsWith x ['.', '/', '/'] = false := by
    by_contra hc
    simp only [Bool.not_eq_false] at hc
    rw [lsw_long_short x hc] at h2
    exact absurd h2 (by decide)
  unfold normXpathCore
  rw [if_neg (by simp [h1, h2, h4]), if_neg (by simp [h3]), if_pos hne]

theorem startsWithHttpChars_normalizeUrl (href base : List Char)
    (h : (listStartsWith (trimEndSlashesChars base) "http://".data ||
          listStartsWith (trimEndSlashesChars base) "https://".data) = true) :
    (listStartsWith (normalizeUrlChars href base) "http://".data ||
     listStartsWith (normalizeUrlChars href base) "https://".data) = true := by
  unfold normalizeUrlChars
  split
  · rename_i h1
    exact h1
  · split
    · rename_i h1 h2
      obtain ⟨r, hr⟩ := listStartsWith_shape href ['/', '/'] h2
      have hs : "https://".data = "https:".data ++ ['/', '/'] := by decide
      have : listStartsWith ("https:".data ++ href) "https://".data = true := by
        rw [hs, hr, ← List.append_assoc]
        exact listStartsWith_append _ _ r (listStartsWith_refl _)
      exact Bool.or_eq_true_iff.mpr (Or.inr this)
    · split
      · rcases Bool.or_eq_true_iff.mp h with h' | h' <;>
          simp [listStartsWith_append _ _ _ h']
      · rcases Bool.or_eq_true_iff.mp h with h' | h' <;>
          simp [listStartsWith_append _ _ _ h']

/-! Helper lemmas about episode extraction and attachment. -/

theorem parse_episodes_go_nonempty (tR : Nat) (base : String) :
    ∀ (rns : List (List EpNode)) (idx : Nat) (r : EpisodeRoad),
      r ∈ parse_episodes_go tR base idx rns → r.episodes ≠ [] := by
  intro rns
  induction rns with
  | nil => intro idx r hr; simp [parse_episodes_go] at hr
  | cons rn rest ih =>
    intro idx r hr
    unfold parse_episodes_go at hr
    rw [List.mem_append] at hr
    rcases hr with hr | hr
    · split at hr
      · rename_i hne
        simp at hr
        rw [hr]
        exact hne
      · simp at hr
    · exact ih (idx + 1) r hr

theorem parse_episodes_go_name_none (tR : Nat) (base : String) (htR : tR ≤ 1) :
    ∀ (rns : List (List EpNode)) (idx : Nat) (r : EpisodeRoad),
      r ∈ parse_episodes_go tR base idx rns → r.name = none := by
  intro rns
  induction rns with
  | nil => intro idx r hr; simp [parse_episodes_go] at hr
  | cons rn rest ih =>
    intro idx r hr
    unfold parse_episodes_go at hr
    rw [List.mem_append] at hr
    rcases hr with hr | hr
    · split at hr
      · simp at hr
        rw [hr]
        simp [Nat.not_lt.mpr htR]
      · simp at hr
    · exact ih (idx + 1) r hr

theorem parse_episodes_go_mem (tR : Nat) (base : String) :
    ∀ (rns : List (List EpNode)) (idx i : Nat) (hi : i < rns.length),
      episodesOfRoad base rns[i] ≠ [] →
      { name := if tR > 1 then some ("线路" ++ toString (idx + i + 1)) else none,
        episodes := episodesOfRoad base rns[i] } ∈ parse_episodes_go tR base idx rns := by
  intro rns
  induction rns with
  | nil => intro idx i hi; simp at hi
  | cons rn rest ih =>
    intro idx i hi hne
    unfold parse_episodes_go
    rw [List.mem_append]
    cases i with
    | zero =>
      left
      simp only [List.getElem_cons_zero] at hne ⊢
      rw [if_pos hne]
      simp
    | succ j =>
      right
      have hj : j < rest.length := by simpa using hi
      have := ih (idx + 1) j hj (by simpa using hne)
      have harith : idx + 1 + j + 1 = idx + (j + 1) + 1 := by omega
      rw [harith] at this
      simpa using this

theorem parse_episodes_go_length (tR : Nat) (base : String) :
    ∀ (rns : List (List EpNode)) (idx : Nat),
      (parse_episodes_go tR base idx rns).length =
        (rns.filter (fun rn => !(episodesOfRoad base rn).isEmpty)).length := by
  intro rns
  induction rns with
  | nil => intro idx; simp [parse_episodes_go]
  | cons rn rest ih =>
    intro idx
    unfold parse_episodes_go
    rw [List.length_append]
    by_cases hne : episodesOfRoad base rn = []
    · rw [if_neg (by simp [hne]), List.filter_cons]
      simp [hne, ih (idx + 1)]
    · rw [if_pos hne, List.filter_cons]
      have : (!(episodesOfRoad base rn).isEmpty) = true := by
        simp [List.isEmpty_iff, hne]
      simp [this, ih (idx + 1)]
      omega

theorem attachGo_getElem_untouched (f : Nat → Option (List EpisodeRoad)) (m : Nat) :
    ∀ (items : List SearchResultItem) (s k : Nat), m ≤ s + k →
      (attachGo f m s items)[k]? = items[k]? := by
  intro items
  induction items with
  | nil => intro s k _; simp [attachGo]
  | cons item rest ih =>
    intro s k hk
    cases k with
    | zero =>
      have : ¬ s < m := by omega
      simp [attachGo, this]
    | succ j =>
      simp only [attachGo, List.getElem?_cons_succ]
      exact ih (s + 1) j (by omega)

/-! Helper lemmas about the orchestrator model. -/

theorem mem_of_getElem?_some {α : Type} (l : List α) (i : Nat) (a : α)
    (h : l[i]? = some a) : a ∈ l := by
  obtain ⟨hlt, he⟩ := List.getElem?_eq_some.mp h
  exact he ▸ List.getElem_mem hlt

theorem firstIsInc_before (i : Nat) :
    ∀ (l1 l2 : List Act), firstIsInc i (l1 ++ Act.send i :: l2) = true →
      Act.inc i ∈ l1 := by
  intro l1
  induction l1 with
  | nil =>
    intro l2 h
    simp only [List.nil_append] at h
    unfold firstIsInc at h
    rw [if_neg (by simp), if_pos rfl] at h
    exact absurd h (by decide)
  | cons a l1' ih =>
    intro l2 h
    simp only [List.cons_append] at h
    unfold firstIsInc at h
    by_cases ha : a = Act.inc i
    · exact ha ▸ List.mem_cons_self a l1'
    · rw [if_neg ha] at h
      by_cases hs : a = Act.send i
      · rw [if_pos hs] at h
        exact absurd h (by decide)
      · rw [if_neg hs] at h
        exact List.mem_cons_of_mem a (ih l2 h)

theorem validSchedB_spec (total : Nat) (sched : List Act)
    (h : validSchedB total sched = true) :
    (∀ i, i < total → sched.count (Act.inc i) = 1 ∧ sched.count (Act.send i) = 1 ∧
      firstIsInc i sched = true) ∧
    (∀ a ∈ sched, a.idx < total) := by
  unfold validSchedB at h
  rw [Bool.and_eq_true] at h
  obtain ⟨h1, h2⟩ := h
  constructor
  · intro i hi
    have := (List.all_eq_true.mp h1) i (List.mem_range.mpr hi)
    simp only [Bool.and_eq_true, beq_iff_eq] at this
    exact ⟨this.1.1, this.1.2, this.2⟩
  · intro a ha
    have := (List.all_eq_true.mp h2) a ha
    simpa using this

theorem count_sendIdxs (i : Nat) :
    ∀ (sched : List Act), (sendIdxs sched).count i = sched.count (Act.send i) := by
  intro sched
  induction sched with
  | nil => rfl
  | cons a rest ih =>
    cases a with
    | inc j =>
      simp only [sendIdxs, List.filterMap_cons] at ih ⊢
      rw [List.count_cons]
      simpa [ih] using (by simp : ((Act.inc j == Act.send i) = false))
    | send j =>
      simp only [sendIdxs, List.filterMap_cons] at ih ⊢
      rw [List.count_cons, List.count_cons, ih]
      by_cases hji : j = i
      · simp [hji]
      · simp [hji, Ne.symm hji]

theorem count_incIdxs (i : Nat) :
    ∀ (sched : List Act), (incIdxs sched).count i = sched.count (Act.inc i) := by
  intro sched
  induction sched with
  | nil => rfl
  | cons a rest ih =>
    cases a with
    | send j =>
      simp only [incIdxs, List.filterMap_cons] at ih ⊢
      rw [List.count_cons]
      simpa [ih] using (by simp : ((Act.send j == Act.inc i) = false))
    | inc j =>
      simp only [incIdxs, List.filterMap_cons] at ih ⊢
      rw [List.count_cons, List.count_cons, ih]
      by_cases hji : j = i
      · simp [hji]
      · simp [hji, Ne.symm hji]

theorem length_sendIdxs :
    ∀ (sched : List Act), (sendIdxs sched).length = sched.countP Act.isSend := by
  intro sched
  induction sched with
  | nil => rfl
  | cons a rest ih =>
    cases a with
    | inc j => simp [sendIdxs, List.filterMap_cons, List.countP_cons, Act.isSend] at ih ⊢; exact ih
    | send j => simp [sendIdxs, List.filterMap_cons, List.countP_cons, Act.isSend] at ih ⊢; exact ih

theorem length_incIdxs :
    ∀ (sched : List Act), (incIdxs sched).length = sched.countP Act.isInc := by
  intro sched
  induction sched with
  | nil => rfl
  | cons a rest ih =>
    cases a with
    | send j => simp [incIdxs, List.filterMap_cons, List.countP_cons, Act.isInc] at ih ⊢; exact ih
    | inc j => simp [incIdxs, List.filterMap_cons, List.countP_cons, Act.isInc] at ih ⊢; exact ih

theorem count_range_eq (total i : Nat) :
    (List.range total).count i = if i < total then 1 else 0 := by
  by_cases hi : i < total
  · rw [if_pos hi]
    exact List.count_eq_one_of_mem (List.nodup_range total) (List.mem_range.mpr hi)
  · rw [if_neg hi]
    exact List.count_eq_zero_of_not_mem (by simpa using hi)

theorem countP_isSend_of_valid (total : Nat) (sched : List Act)
    (h : validSchedB total sched = true) : sched.countP Act.isSend = total := by
  obtain ⟨h1, h2⟩ := validSchedB_spec total sched h
  have hperm : (sendIdxs sched).Perm (List.range total) := by
    rw [List.perm_iff_count]
    intro i
    rw [count_sendIdxs i sched, count_range_eq]
    by_cases hi : i < total
    · rw [if_pos hi]; exact (h1 i hi).2.1
    · rw [if_neg hi]
      rw [List.count_eq_zero]
      intro hmem
      exact hi (by simpa [Act.idx] using h2 _ hmem)
  have := hperm.length_eq
  rw [length_sendIdxs, List.length_range] at this
  exact this

theorem countP_isInc_of_valid (total : Nat) (sched : List Act)
    (h : validSchedB total sched = true) : sched.countP Act.isInc = total := by
  obtain ⟨h1, h2⟩ := validSchedB_spec total sched h
  have hperm : (incIdxs sched).Perm (List.range total) := by
    rw [List.perm_iff_count]
    intro i
    rw [count_incIdxs i sched, count_range_eq]
    by_cases hi : i < total
    · rw [if_pos hi]; exact (h1 i hi).1
    · rw [if_neg hi]
      rw [List.count_eq_zero]
      intro hmem
      exact hi (by simpa [Act.idx] using h2 _ hmem)
  have := hperm.length_eq
  rw [length_incIdxs, List.length_range] at this
  exact this

theorem mkTaskEvent_is_mid (rule : Rule) (res : PlatformSearchResult) (cur total : Nat) :
    isMidEvent (mkTaskEvent rule res cur total) = true ∧
    eventTotal (mkTaskEvent rule res cur total) = some total := by
  unfold mkTaskEvent
  split <;> simp [isMidEvent, eventTotal]

theorem completedValues_mkTaskEvent (rule : Rule) (res : PlatformSearchResult)
    (cur total : Nat) :
    completedValues [mkTaskEvent rule res cur total] = [cur] := by
  unfold mkTaskEvent
  split <;> simp [completedValues]

theorem sendsSafe_inc (rules : List Rule) (results : List PlatformSearchResult)
    (i : Nat) (rest : List Act) (vals : Nat → Option Nat) (c : Nat)
    (h : SendsSafe rules results (Act.inc i :: rest) vals) :
    SendsSafe rules results rest (fun j => if j = i then some (c + 1) else vals j) := by
  intro k l1 l2 hdec
  obtain ⟨hb1, hb2, hv⟩ := h k (Act.inc i :: l1) l2 (by simp [hdec])
  refine ⟨hb1, hb2, ?_⟩
  rcases hv with hv | hv
  · left
    by_cases hk : k = i <;> simp [hk, hv]
  · rw [List.mem_cons] at hv
    rcases hv with hv | hv
    · left
      have hki : k = i := by
        have := congrArg Act.idx hv
        simpa [Act.idx] using this
      simp [hki]
    · right; exact hv

theorem sendsSafe_send (rules : List Rule) (results : List PlatformSearchResult)
    (i : Nat) (rest : List Act) (vals : Nat → Option Nat)
    (h : SendsSafe rules results (Act.send i :: rest) vals) :
    SendsSafe rules results rest vals := by
  intro k l1 l2 hdec
  obtain ⟨hb1, hb2, hv⟩ := h k (Act.send i :: l1) l2 (by simp [hdec])
  refine ⟨hb1, hb2, ?_⟩
  rcases hv with hv | hv
  · left; exact hv
  · rw [List.mem_cons] at hv
    rcases hv with hv | hv
    · exact absurd hv (by simp)
    · right; exact hv

theorem runTasks_structure (rules : List Rule) (results : List PlatformSearchResult)
    (total : Nat) (sched : List Act) :
    ∀ (c : Nat) (vals : Nat → Option Nat),
      SendsSafe rules results sched vals →
      (runTasks rules results total sched c vals).length = sched.countP Act.isSend ∧
      ∀ e ∈ runTasks rules results total sched c vals,
        isMidEvent e = true ∧ eventTotal e = some total := by
  induction sched with
  | nil => intro c vals _; simp [runTasks]
  | cons a rest ih =>
    intro c vals h
    cases a with
    | inc i =>
      have h' := sendsSafe_inc rules results i rest vals c h
      have := ih (c + 1) (fun j => if j = i then some (c + 1) else vals j) h'
      simpa [runTasks, List.countP_cons, Act.isSend] using this
    | send i =>
      obtain ⟨hb1, hb2, hv⟩ := h i [] rest rfl
      have hv' : (vals i).isSome = true := by
        rcases hv with hv | hv
        · exact hv
        · simp at hv
      obtain ⟨cur, hcur⟩ := Option.isSome_iff_exists.mp hv'
      have hr : rules[i]? = some rules[i] := List.getElem?_eq_getElem hb1
      have hs : results[i]? = some results[i] := List.getElem?_eq_getElem hb2
      have hrest := ih c vals (sendsSafe_send rules results i rest vals h)
      constructor
      · simp only [runTasks, hr, hs, hcur, List.countP_cons, Act.isSend]
        simp [hrest.1]
      · intro e he
        simp only [runTasks, hr, hs, hcur, List.singleton_append] at he
        rw [List.mem_cons] at he
        rcases he with he | he
        · rw [he]; exact mkTaskEvent_is_mid _ _ _ _
        · exact hrest.2 e he

theorem runTasks_mem (rules : List Rule) (results : List PlatformSearchResult)
    (total : Nat) (sched : List Act) :
    ∀ (c : Nat) (vals : Nat → Option Nat) (j : Nat) (rule : Rule)
      (res : PlatformSearchResult),
      SendsSafe rules results sched vals →
      Act.send j ∈ sched →
      rules[j]? = some rule → results[j]? = some res →
      ∃ cur, mkTaskEvent rule res cur total ∈
        runTasks rules results total sched c vals := by
  induction sched with
  | nil => intro c vals j rule res _ hmem; simp at hmem
  | cons a rest ih =>
    intro c vals j rule res h hmem hr hs
    cases a with
    | inc i =>
      have hmem' : Act.send j ∈ rest := by
        rw [List.mem_cons] at hmem
        rcases hmem with hmem | hmem
        · exact absurd hmem (by simp)
        · exact hmem
      obtain ⟨cur, hcur⟩ := ih (c + 1) (fun k => if k = i then some (c + 1) else vals k)
        j rule res (sendsSafe_inc rules results i rest vals c h) hmem' hr hs
      exact ⟨cur, by simpa [runTasks] using hcur⟩
    | send i =>
      obtain ⟨hb1, hb2, hv⟩ := h i [] rest rfl
      have hv' : (vals i).isSome = true := by
        rcases hv with hv | hv
        · exact hv
        · simp at hv
      obtain ⟨curi, hcuri⟩ := Option.isSome_iff_exists.mp hv'
      have hri : rules[i]? = some rules[i] := List.getElem?_eq_getElem hb1
      have hsi : results[i]? = some results[i] := List.getElem?_eq_getElem hb2
      by_cases hij : i = j
      · subst hij
        refine ⟨curi, ?_⟩
        have hre : rules[i] = rule := by rw [hri] at hr; injection hr
        have hse : results[i] = res := by rw [hsi] at hs; injection hs
        simp only [runTasks, hri, hsi, hcuri, hre, hse]
        exact List.mem_cons_self _ _
      · have hmem' : Act.send j ∈ rest := by
          rw [List.mem_cons] at hmem
          rcases hmem with hmem | hmem
          · exact absurd (by injection hmem.symm) hij
          · exact hmem
        obtain ⟨cur, hcur⟩ := ih c vals j rule res
          (sendsSafe_send rules results i rest vals h) hmem' hr hs
        refine ⟨cur, ?_⟩
        simp only [runTasks, hri, hsi, hcuri]
        exact List.mem_cons_of_mem _ hcur

theorem completedValues_cons_mk (rule : Rule) (res : PlatformSearchResult)
    (cur total : Nat) (L : List StreamEvent) :
    completedValues (mkTaskEvent rule res cur total :: L) = cur :: completedValues L := by
  unfold mkTaskEvent
  split <;> simp [completedValues]

theorem runTasks_perm (rules : List Rule) (results : List PlatformSearchResult)
    (total : Nat) (sched : List Act) :
    ∀ (c : Nat) (vals : Nat → Option Nat) (pend : List (Nat × Nat)),
      RunInv rules results sched vals pend →
      (completedValues (runTasks rules results total sched c vals)).Perm
        (pend.map Prod.snd ++ List.range' (c + 1) (sched.countP Act.isInc)) := by
  induction sched with
  | nil =>
    intro c vals pend hinv
    obtain ⟨h1, h2, h3, h4, h5, h6, h7⟩ := hinv
    have hpend : pend = [] := by
      cases pend with
      | nil => rfl
      | cons p ps =>
        have hm : p.1 ∈ keysOf (p :: ps) := by simp [keysOf]
        have := h4 p.1 hm
        simp at this
    subst hpend
    simp [runTasks, completedValues]
  | cons a rest ih =>
    intro c vals pend hinv
    obtain ⟨h1, h2, h3, h4, h5, h6, h7⟩ := hinv
    cases a with
    | inc i =>
      have h6i := h6 i (List.mem_cons_self _ _)
      have hsendr : Act.send i ∈ rest := by
        rcases List.mem_cons.mp h6i.1 with he | he
        · exact absurd he (by simp)
        · exact he
      have hikey : i ∉ keysOf pend := h6i.2
      have inv1 : ∀ p ∈ ((i, c + 1) :: pend),
          (fun j => if j = i then some (c + 1) else vals j) p.1 = some p.2 := by
        intro p hp
        rcases List.mem_cons.mp hp with hp | hp
        · rw [hp]; simp
        · have hpk : p.1 ≠ i := by
            intro he
            exact hikey (he ▸ List.mem_map_of_mem Prod.fst hp)
          simp [hpk, h1 p hp]
      have inv2 : (keysOf ((i, c + 1) :: pend)).Nodup := by
        simp only [keysOf, List.map_cons]
        exact List.nodup_cons.mpr ⟨hikey, h2⟩
      have inv3 : ∀ k l1 l2, rest = l1 ++ Act.send k :: l2 →
          k < rules.length ∧ k < results.length ∧
          (k ∈ keysOf ((i, c + 1) :: pend) ∨ Act.inc k ∈ l1) := by
        intro k l1 l2 hdec
        obtain ⟨hb1, hb2, hv⟩ := h3 k (Act.inc i :: l1) l2 (by simp [hdec])
        refine ⟨hb1, hb2, ?_⟩
        rcases hv with hv | hv
        · left; simp only [keysOf, List.map_cons, List.mem_cons]; right; exact hv
        · rcases List.mem_cons.mp hv with hv | hv
          · left
            have hki : k = i := by
              have := congrArg Act.idx hv
              simpa [Act.idx] using this
            simp [keysOf, hki]
          · right; exact hv
      have inv4 : ∀ k ∈ keysOf ((i, c + 1) :: pend), rest.count (Act.send k) = 1 := by
        intro k hk
        simp only [keysOf, List.map_cons, List.mem_cons] at hk
        rcases hk with hk | hk
        · subst hk
          have hle := (h5 k).1
          rw [List.count_cons] at hle
          simp at hle
          have hpos : 0 < rest.count (Act.send k) := List.count_pos_iff.mpr hsendr
          omega
        · have := h4 k hk
          rw [List.count_cons] at this
          simpa using this
      have inv5 : ∀ k, rest.count (Act.send k) ≤ 1 ∧ rest.count (Act.inc k) ≤ 1 := by
        intro k
        have := h5 k
        rw [List.count_cons, List.count_cons] at this
        constructor
        · have := this.1; split at this <;> omega
        · have := this.2; split at this <;> omega
      have inv6 : ∀ k, Act.inc k ∈ rest →
          Act.send k ∈ rest ∧ k ∉ keysOf ((i, c + 1) :: pend) := by
        intro k hk
        have h6k := h6 k (List.mem_cons_of_mem _ hk)
        have hks : Act.send k ∈ rest := by
          rcases List.mem_cons.mp h6k.1 with he | he
          · exact absurd he (by simp)
          · exact he
        refine ⟨hks, ?_⟩
        have hki : k ≠ i := by
          intro he
          subst he
          have hle := (h5 k).2
          rw [List.count_cons] at hle
          simp at hle
          have hpos : 0 < rest.count (Act.inc k) := List.count_pos_iff.mpr hk
          omega
        simp only [keysOf, List.map_cons, List.mem_cons]
        push_neg
        exact ⟨hki, by simpa [keysOf] using h6k.2⟩
      have inv7 : ∀ k, Act.send k ∈ rest →
          k ∈ keysOf ((i, c + 1) :: pend) ∨ Act.inc k ∈ rest := by
        intro k hk
        have h7k := h7 k (List.mem_cons_of_mem _ hk)
        rcases h7k with h7k | h7k
        · left; simp only [keysOf, List.map_cons, List.mem_cons]; right
          simpa [keysOf] using h7k
        · rcases List.mem_cons.mp h7k with he | he
          · left
            have hki : k = i := by
              have := congrArg Act.idx he
              simpa [Act.idx] using this
            simp [keysOf, hki]
          · right; exact he
      have hih := ih (c + 1) (fun j => if j = i then some (c + 1) else vals j)
        ((i, c + 1) :: pend) ⟨inv1, inv2, inv3, inv4, inv5, inv6, inv7⟩
      have hrw : runTasks rules results total (Act.inc i :: rest) c vals =
          runTasks rules results total rest (c + 1)
            (fun j => if j = i then some (c + 1) else vals j) := by
        simp [runTasks]
      rw [hrw]
      have hcount : (Act.inc i :: rest).countP Act.isInc = rest.countP Act.isInc + 1 := by
        rw [List.countP_cons]; simp [Act.isInc]
      rw [hcount, List.range'_succ]
      have heq : ((i, c + 1) :: pend).map Prod.snd ++
          List.range' (c + 1 + 1) (rest.countP Act.isInc) =
          (c + 1) :: (pend.map Prod.snd ++ List.range' (c + 2) (rest.countP Act.isInc)) := by
        simp
      rw [heq] at hih
      have hgoal : (pend.map Prod.snd ++
          ((c + 1) :: List.range' (c + 1 + 1) (rest.countP Act.isInc))).Perm
          ((c + 1) :: (pend.map Prod.snd ++ List.range' (c + 2) (rest.countP Act.isInc))) := by
        have := @List.perm_middle Nat (c + 1) (pend.map Prod.snd)
          (List.range' (c + 2) (rest.countP Act.isInc))
        simpa using this
      exact hih.trans hgoal.symm
    | send i =>
      obtain ⟨hb1, hb2, hv0⟩ := h3 i [] rest rfl
      have hkey : i ∈ keysOf pend := by
        rcases hv0 with hv0 | hv0
        · exact hv0
        · simp at hv0
      obtain ⟨p, hp, hpi⟩ := List.mem_map.mp hkey
      have hvals : vals i = some p.2 := by
        have := h1 p hp
        rwa [hpi] at this
      obtain ⟨s, t, hst⟩ := List.append_of_mem hp
      have hkeys : keysOf pend = s.map Prod.fst ++ i :: t.map Prod.fst := by
        rw [hst]
        simp [keysOf, hpi]
      have hsnd : pend.map Prod.snd = s.map Prod.snd ++ p.2 :: t.map Prod.snd := by
        rw [hst]; simp
      have hnodup' : (i :: (s.map Prod.fst ++ t.map Prod.fst)).Nodup := by
        have hperm : (s.map Prod.fst ++ i :: t.map Prod.fst).Perm
            (i :: (s.map Prod.fst ++ t.map Prod.fst)) := List.perm_middle
        exact hperm.nodup (hkeys ▸ h2)
      have hinotin : i ∉ s.map Prod.fst ++ t.map Prod.fst :=
        (List.nodup_cons.mp hnodup').1
      have hnodup'' : (s.map Prod.fst ++ t.map Prod.fst).Nodup :=
        (List.nodup_cons.mp hnodup').2
      have hsendnot : Act.send i ∉ rest := by
        have h4i := h4 i hkey
        rw [List.count_cons] at h4i
        simp at h4i
        exact List.count_eq_zero.mp h4i
      have hmemk : ∀ k, k ∈ keysOf (s ++ t) ↔
          k ∈ s.map Prod.fst ++ t.map Prod.fst := by
        intro k
        simp [keysOf]
      have hkeys_sub : ∀ k, k ∈ keysOf (s ++ t) → k ∈ keysOf pend := by
        intro k hk
        rw [hmemk] at hk
        rw [hkeys, List.mem_append] at *
        rcases hk with hk | hk
        · exact Or.inl hk
        · exact Or.inr (List.mem_cons_of_mem _ hk)
      have hkeys_mem : ∀ k, k ∈ keysOf pend → k ≠ i → k ∈ keysOf (s ++ t) := by
        intro k hk hki
        rw [hmemk, List.mem_append]
        rw [hkeys, List.mem_append, List.mem_cons] at hk
        rcases hk with hk | hk
        · exact Or.inl hk
        · rcases hk with hk | hk
          · exact absurd hk hki
          · exact Or.inr hk
      have inv1 : ∀ q ∈ s ++ t, vals q.1 = some q.2 := by
        intro q hq
        apply h1
        rw [hst, List.mem_append, List.mem_cons]
        rw [List.mem_append] at hq
        tauto
      have inv2 : (keysOf (s ++ t)).Nodup := by
        simpa [keysOf] using hnodup''
      have inv3 : ∀ k l1 l2, rest = l1 ++ Act.send k :: l2 →
          k < rules.length ∧ k < results.length ∧
          (k ∈ keysOf (s ++ t) ∨ Act.inc k ∈ l1) := by
        intro k l1 l2 hdec
        obtain ⟨hc1, hc2, hcv⟩ := h3 k (Act.send i :: l1) l2 (by simp [hdec])
        refine ⟨hc1, hc2, ?_⟩
        have hki : k ≠ i := by
          intro he
          subst he
          exact hsendnot (hdec ▸ List.mem_append.mpr (Or.inr (List.mem_cons_self _ _)))
        rcases hcv with hcv | hcv
        · exact Or.inl (hkeys_mem k hcv hki)
        · rcases List.mem_cons.mp hcv with he | he
          · exact absurd he (by simp)
          · exact Or.inr he
      have inv4 : ∀ k ∈ keysOf (s ++ t), rest.count (Act.send k) = 1 := by
        intro k hk
        have hki : k ≠ i := by
          intro he
          exact hinotin (he ▸ (hmemk k).mp hk)
        have := h4 k (hkeys_sub k hk)
        rw [List.count_cons] at this
        have hne : (Act.send i == Act.send k) = false := by
          simp
          intro he
          exact hki he.symm
        rw [hne] at this
        simpa using this
      have inv5 : ∀ k, rest.count (Act.send k) ≤ 1 ∧ rest.count (Act.inc k) ≤ 1 := by
        intro k
        have := h5 k
        rw [List.count_cons, List.count_cons] at this
        constructor
        · have := this.1; split at this <;> omega
        · have := this.2; split at this <;> omega
      have inv6 : ∀ k, Act.inc k ∈ rest →
          Act.send k ∈ rest ∧ k ∉ keysOf (s ++ t) := by
        intro k hk
        have h6k := h6 k (List.mem_cons_of_mem _ hk)
        have hki : k ≠ i := by
          intro he
          subst he
          exact h6k.2 hkey
        refine ⟨?_, fun hmem => h6k.2 (hkeys_sub k hmem)⟩
        rcases List.mem_cons.mp h6k.1 with he | he
        · exact absurd (by
            have := congrArg Act.idx he
            simpa [Act.idx] using this) hki
        · exact he
      have inv7 : ∀ k, Act.send k ∈ rest →
          k ∈ keysOf (s ++ t) ∨ Act.inc k ∈ rest := by
        intro k hk
        have hki : k ≠ i := by
          intro he
          exact hsendnot (he ▸ hk)
        rcases h7 k (List.mem_cons_of_mem _ hk) with h7k | h7k
        · exact Or.inl (hkeys_mem k h7k hki)
        · rcases List.mem_cons.mp h7k with he | he
          · exact absurd he (by simp)
          · exact Or.inr he
      have hih := ih c vals (s ++ t) ⟨inv1, inv2, inv3, inv4, inv5, inv6, inv7⟩
      have hri : rules[i]? = some rules[i] := List.getElem?_eq_getElem hb1
      have hsi : results[i]? = some results[i] := List.getElem?_eq_getElem hb2
      have hrw : runTasks rules results total (Act.send i :: rest) c vals =
          mkTaskEvent rules[i] results[i] p.2 total ::
            runTasks rules results total rest c vals := by
        simp [runTasks, hri, hsi, hvals]
      rw [hrw, completedValues_cons_mk]
      have hcount : (Act.send i :: rest).countP Act.isInc = rest.countP Act.isInc := by
        rw [List.countP_cons]; simp [Act.isInc]
      rw [hcount]
      have step1 : (p.2 :: completedValues (runTasks rules results total rest c vals)).Perm
          (p.2 :: ((s ++ t).map Prod.snd ++ List.range' (c + 1) (rest.countP Act.isInc))) :=
        hih.cons p.2
      have step2 : (p.2 :: ((s ++ t).map Prod.snd ++
          List.range' (c + 1) (rest.countP Act.isInc))).Perm
          (pend.map Prod.snd ++ List.range' (c + 1) (rest.countP Act.isInc)) := by
        have hmid : (pend.map Prod.snd).Perm (p.2 :: (s ++ t).map Prod.snd) := by
          rw [hsnd]
          simpa using (@List.perm_middle Nat p.2 (s.map Prod.snd) (t.map Prod.snd))
        have := (hmid.symm).append_right (List.range' (c + 1) (rest.countP Act.isInc))
        simpa using this
      exact step1.trans step2

theorem sendsSafe_init (rules : List Rule) (results : List PlatformSearchResult)
    (sched : List Act) (hres : results.length = rules.length)
    (hv : validSchedB rules.length sched = true) :
    SendsSafe rules results sched (fun _ => none) := by
  obtain ⟨hv1, hv2⟩ := validSchedB_spec rules.length sched hv
  intro i l1 l2 hdec
  have hmem : Act.send i ∈ sched := by
    rw [hdec]
    exact List.mem_append.mpr (Or.inr (List.mem_cons_self _ _))
  have hidx : i < rules.length := by simpa [Act.idx] using hv2 _ hmem
  refine ⟨hidx, by omega, Or.inr ?_⟩
  have hfi := (hv1 i hidx).2.2
  exact firstIsInc_before i l1 l2 (hdec ▸ hfi)

theorem runInv_init (rules : List Rule) (results : List PlatformSearchResult)
    (sched : List Act) (hres : results.length = rules.length)
    (hv : validSchedB rules.length sched = true) :
    RunInv rules results sched (fun _ => none) [] := by
  obtain ⟨hv1, hv2⟩ := validSchedB_spec rules.length sched hv
  refine ⟨by simp, by simp [keysOf], ?_, by simp [keysOf], ?_, ?_, ?_⟩
  · intro i l1 l2 hdec
    have hmem : Act.send i ∈ sched := by
      rw [hdec]
      exact List.mem_append.mpr (Or.inr (List.mem_cons_self _ _))
    have hidx : i < rules.length := by simpa [Act.idx] using hv2 _ hmem
    refine ⟨hidx, by omega, Or.inr ?_⟩
    have hfi := (hv1 i hidx).2.2
    exact firstIsInc_before i l1 l2 (hdec ▸ hfi)
  · intro i
    by_cases hi : i < rules.length
    · have := hv1 i hi
      omega
    · constructor
      · rw [List.count_eq_zero.mpr]
        · omega
        · intro hmem
          exact hi (by simpa [Act.idx] using hv2 _ hmem)
      · rw [List.count_eq_zero.mpr]
        · omega
        · intro hmem
          exact hi (by simpa [Act.idx] using hv2 _ hmem)
  · intro i hmem
    have hidx : i < rules.length := by simpa [Act.idx] using hv2 _ hmem
    refine ⟨List.count_pos_iff.mp ?_, by simp [keysOf]⟩
    rw [(hv1 i hidx).2.1]
    omega
  · intro i hmem
    have hidx : i < rules.length := by simpa [Act.idx] using hv2 _ hmem
    refine Or.inr (List.count_pos_iff.mp ?_)
    rw [(hv1 i hidx).1]
    omega

theorem execute_parallel_search_events (rules : List Rule)
    (results : List PlatformSearchResult) (sched : List Act)
    (hres : results.length = rules.length)
    (hv : validSchedB rules.length sched = true) :
    ∃ mid, (execute_parallel_search rules results true sched).events =
        StreamEvent.init rules.length :: mid ++ [StreamEvent.done] ∧
      mid.length = rules.length ∧
      (∀ e ∈ mid, isMidEvent e = true ∧ eventTotal e = some rules.length) ∧
      (completedValues mid).Perm (List.range' 1 rules.length) := by
  refine ⟨runTasks rules results rules.length sched 0 (fun _ => none), ?_, ?_, ?_, ?_⟩
  · simp [execute_parallel_search]
  · rw [(runTasks_structure rules results rules.length sched 0 (fun _ => none)
      (sendsSafe_init rules results sched hres hv)).1]
    exact countP_isSend_of_valid rules.length sched hv
  · exact (runTasks_structure rules results rules.length sched 0 (fun _ => none)
      (sendsSafe_init rules results sched hres hv)).2
  · have := runTasks_perm rules results rules.length sched 0 (fun _ => none) []
      (runInv_init rules results sched hres hv)
    rw [countP_isInc_of_valid rules.length sched hv] at this
    simpa using this

/-! The claims. -/

/-- C2 counterexample: a selector starting with a single `/` is not left
unchanged — `normalize_xpath "/div"` prepends another `/`, producing
`"//div"`. -/
theorem c2_counterexample : normalize_xpath "/div" = "//div" ∧
    normalize_xpath "/div" ≠ "/div" := by decide

/-- C2 (amended): for a whitespace-trimmed selector `s`, `normalize_xpath`
leaves `s` unchanged when it starts with `//` or `./` (hence also `.//`);
prepends another `/` — yielding a `//`-prefixed expression, not `s`
itself — when `s` starts with a single `/`; and prepends `.//` to a
non-empty bare path. -/
theorem c2_normalize_cases (s : String) (h : rustTrim s = s) :
    ((rustStartsWith s "//" = true ∨ rustStartsWith s "./" = true) →
      normalize_xpath s = s) ∧
    (rustStartsWith s "//" = false → rustStartsWith s "./" = false →
      rustStartsWith s "/" = true → normalize_xpath s = "/" ++ s) ∧
    (rustStartsWith s "./" = false → rustStartsWith s "/" = false → s ≠ "" →
      normalize_xpath s = ".//" ++ s) := by
  have hdata : trimChars s.data = s.data := by
    have := congrArg String.data h
    simpa [rustTrim] using this
  have hnx : normalize_xpath s = String.mk (normXpathCore s.data) := by
    unfold normalize_xpath normalizeXpathChars
    rw [hdata]
  have e2 : ("//" : String).data = ['/', '/'] := by decide
  have e3 : ("./" : String).data = ['.', '/'] := by decide
  have e4 : ("/" : String).data = ['/'] := by decide
  refine ⟨?_, ?_, ?_⟩
  · intro hs
    rw [hnx]
    have hc : normXpathCore s.data = s.data := by
      apply normXpathCore_pass
      rcases hs with hs | hs
      · left; unfold rustStartsWith at hs; rwa [e2] at hs
      · right; unfold rustStartsWith at hs; rwa [e3] at hs
    rw [hc]
  · intro h1 h2 h3
    rw [hnx]
    have hc : normXpathCore s.data = '/' :: s.data := by
      apply normXpathCore_rooted
      · unfold rustStartsWith at h1; rwa [e2] at h1
      · unfold rustStartsWith at h2; rwa [e3] at h2
      · unfold rustStartsWith at h3; rwa [e4] at h3
    rw [hc]
    have happ : "/" ++ s = String.mk ('/' :: s.data) := by
      have hd : ("/" ++ s).data = '/' :: s.data := by rw [String.data_append]; rfl
      calc "/" ++ s = String.mk (("/" ++ s).data) := rfl
        _ = String.mk ('/' :: s.data) := by rw [hd]
    rw [happ]
  · intro h2 h3 hne
    rw [hnx]
    have hc : normXpathCore s.data = '.' :: '/' :: '/' :: s.data := by
      apply normXpathCore_bare
      · unfold rustStartsWith at h2; rwa [e3] at h2
      · unfold rustStartsWith at h3; rwa [e4] at h3
      · intro hnil
        apply hne
        calc s = String.mk s.data := rfl
          _ = String.mk [] := by rw [hnil]
          _ = "" := rfl
    rw [hc]
    have happ : ".//" ++ s = String.mk ('.' :: '/' :: '/' :: s.data) := by
      have hd : (".//" ++ s).data = '.' :: '/' :: '/' :: s.data := by
        rw [String.data_append]; rfl
      calc ".//" ++ s = String.mk ((".//" ++ s).data) := rfl
        _ = String.mk ('.' :: '/' :: '/' :: s.data) := by rw [hd]
    rw [happ]

/-- C2 witness: the rooted case at `"/a"`. -/
theorem c2_normalize_cases_witness :
    rustTrim "/a" = "/a" ∧ rustStartsWith "/a" "//" = false ∧
    rustStartsWith "/a" "./" = false ∧ rustStartsWith "/a" "/" = true ∧
    normalize_xpath "/a" = "/" ++ "/a" :=
  ⟨by decide, by decide, by decide, by decide,
    (c2_normalize_cases "/a" (by decide)).2.1 (by decide) (by decide) (by decide)⟩

/-- C8: `normalize_xpath` is idempotent on every non-empty selector. -/
theorem c8_normalize_idempotent (s : String) (h : s ≠ "") :
    normalize_xpath (normalize_xpath s) = normalize_xpath s := by
  show String.mk (normalizeXpathChars (String.mk (normalizeXpathChars s.data)).data) = _
  exact congrArg String.mk (normalizeXpathChars_idem s.data)

/-- C8 witness: idempotence at the bare path `"div/a"`. -/
theorem c8_normalize_idempotent_witness :
    "div/a" ≠ "" ∧
    normalize_xpath (normalize_xpath "div/a") = normalize_xpath "div/a" :=
  ⟨by decide, c8_normalize_idempotent "div/a" (by decide)⟩

/-- C4 counterexample: with base URL `"b"`, resolving href `"a"` yields
`"b/a"`, which starts with neither `http://` nor `https://`. -/
theorem c4_counterexample : normalize_url "a" "b" = "b/a" ∧
    startsWithHttp (normalize_url "a" "b") = false := by decide

/-- C4 (amended): whenever the base URL still starts with `http://` or
`https://` after its trailing slashes are stripped, `normalize_url` returns
an absolute URL beginning with `http://` or `https://`, for every href. -/
theorem c4_resolve_absolute (href base_url : String)
    (h : startsWithHttp (strip_trailing_slashes base_url) = true) :
    startsWithHttp (normalize_url href base_url) = true :=
  startsWithHttpChars_normalizeUrl href.data base_url.data h

/-- C4 witness: a relative href against `"https://x.test/"`. -/
theorem c4_resolve_absolute_witness :
    startsWithHttp (strip_trailing_slashes "https://x.test/") = true ∧
    startsWithHttp (normalize_url "a" "https://x.test/") = true :=
  ⟨by decide, c4_resolve_absolute "a" "https://x.test/" (by decide)⟩

/-- C5: `normalize_url` implements exactly the spec's resolution policy
(`spec_resolve`) on every input, and the three concrete scenarios resolve
as the spec states. -/
theorem c5_resolve_policy :
    (∀ href base_url : String, normalize_url href base_url = spec_resolve href base_url) ∧
    normalize_url "/v/1" "https://x.test" = "https://x.test/v/1" ∧
    normalize_url "//cdn.x.test/a.jpg" "https://x.test" = "https://cdn.x.test/a.jpg" ∧
    normalize_url "https://y.test/p" "https://x.test" = "https://y.test/p" :=
  ⟨fun _ _ => rfl, by decide, by decide, by decide⟩

/-- C3 counterexample: with two matched road nodes of which the second has
no valid episode, exactly one road is emitted yet it carries the label
`"线路1"`, so a sole emitted road is not always unlabeled. -/
theorem c3_counterexample :
    (parse_episodes_xpath c3roads "https://x.test").length = 1 ∧
    ∀ r ∈ parse_episodes_xpath c3roads "https://x.test", r.name = some "线路1" := by
  decide

/-- C3 (amended): a road with no surviving episodes is absent; the output
has one entry per road node with surviving episodes; labels are keyed to
the number of *matched* road nodes: with at most one matched node every
emitted road is unlabeled, and with more than one matched node every
surviving road `i` appears labeled `"线路i+1"` by its original index among
all matched nodes. -/
theorem c3_roads_labeling (roadNodes : List (List EpNode)) (urlBase : String) :
    (∀ r ∈ parse_episodes_xpath roadNodes urlBase, r.episodes ≠ []) ∧
    ((parse_episodes_xpath roadNodes urlBase).length =
      (roadNodes.filter (fun rn => !(episodesOfRoad urlBase rn).isEmpty)).length) ∧
    (roadNodes.length ≤ 1 → ∀ r ∈ parse_episodes_xpath roadNodes urlBase,
      r.name = none) ∧
    (∀ i, (hi : i < roadNodes.length) → 1 < roadNodes.length →
      episodesOfRoad urlBase roadNodes[i] ≠ [] →
      { name := some ("线路" ++ toString (i + 1)),
        episodes := episodesOfRoad urlBase roadNodes[i] } ∈
        parse_episodes_xpath roadNodes urlBase) := by
  refine ⟨?_, ?_, ?_, ?_⟩
  · intro r hr
    exact parse_episodes_go_nonempty roadNodes.length urlBase roadNodes 0 r hr
  · exact parse_episodes_go_length roadNodes.length urlBase roadNodes 0
  · intro hle r hr
    exact parse_episodes_go_name_none roadNodes.length urlBase hle roadNodes 0 r hr
  · intro i hi hgt hne
    have := parse_episodes_go_mem roadNodes.length urlBase roadNodes 0 i hi hne
    rw [if_pos hgt] at this
    simpa using this

/-- C3 witness: with two surviving road nodes, road 0 appears labeled
`"线路1"`. -/
theorem c3_roads_labeling_witness :
    (0 < c3wroads.length) ∧ (1 < c3wroads.length) ∧
    episodesOfRoad "https://x.test" c3wroads[0] ≠ [] ∧
    { name := some ("线路" ++ toString (0 + 1)),
      episodes := episodesOfRoad "https://x.test" c3wroads[0] } ∈
      parse_episodes_xpath c3wroads "https://x.test" :=
  ⟨by decide, by decide, by decide,
    (c3_roads_labeling c3wroads "https://x.test").2.2.2 0 (by decide) (by decide)
      (by decide)⟩

/-- C7: with both chapter selectors declared, episode attachment touches at
most the first 5 items: any item at index 5 or beyond that entered without
an `episodes` field leaves without one, whatever the fetches would
return. -/
theorem c7_episode_cap (rule : Rule) (items : List SearchResultItem)
    (fetched : Nat → Option (List EpisodeRoad)) (i : Nat) (it : SearchResultItem)
    (h5 : 5 ≤ i)
    (hnone : ∀ x ∈ items, x.episodes = none)
    (hit : (attach_episodes rule items fetched)[i]? = some it) :
    it.episodes = none := by
  unfold attach_episodes at hit
  split at hit
  · rw [attachGo_getElem_untouched fetched (min 5 items.length) items 0 i
      (by simpa using le_trans (Nat.min_le_left 5 items.length) h5)] at hit
    exact hnone it (mem_of_getElem?_some items i it hit)
  · exact hnone it (mem_of_getElem?_some items i it hit)

/-- C7 witness: six items, successful fetches everywhere, and the sixth
item still carries no episodes. -/
theorem c7_episode_cap_witness :
    5 ≤ 5 ∧ (∀ x ∈ items6, x.episodes = none) ∧
    (attach_episodes rule7 items6 fetch6)[5]? = some (testItem "n6" "u6") ∧
    (testItem "n6" "u6").episodes = none :=
  ⟨by decide, by decide, by decide,
    c7_episode_cap rule7 items6 fetch6 5 (testItem "n6" "u6") (by decide)
      (by decide) (by decide)⟩

/-- C6 counterexample: for a POST rule whose search URL carries an explicit
port, the request is POSTed to `"http://h.test/s"` — the port is dropped
along with the query, not preserved. -/
theorem c6_counterexample :
    execute_search_request c6rule "a" =
      some (HttpRequest.postForm "http://h.test/s" [("wd", "a")]
        (some "http://h.test:8080")) ∧
    "http://h.test/s" ≠ "http://h.test:8080/s" := by decide

/-- C6 (amended): for every POST rule and keyword whose templated URL
parses, the search POSTs the templated URL's query pairs, collected into a
map, to `scheme://host/path` — the query is stripped and so is any explicit
port, because the URL is rebuilt from `host_str()` — with the rule's
`base_url` as the Referer. -/
theorem c6_post_request (rule : Rule) (keyword : String) (uri : ParsedUrl)
    (hp : rule.use_post = true)
    (hu : urlParse (templated_search_url rule keyword) = some uri) :
    execute_search_request rule keyword =
      some (HttpRequest.postForm (uri.scheme ++ "://" ++ uri.host.getD "" ++ uri.path)
        (collectPairs (queryPairsChars (uri.query.getD "").data))
        (some rule.base_url)) := by
  unfold execute_search_request
  rw [if_pos hp, hu]

/-- C6 witness: the POST rule with an explicit port. -/
theorem c6_post_request_witness :
    c6rule.use_post = true ∧
    urlParse (templated_search_url c6rule "a") =
      some { scheme := "http", host := some "h.test", port := some 8080,
             path := "/s", query := some "wd=a" } ∧
    execute_search_request c6rule "a" =
      some (HttpRequest.postForm ("http" ++ "://" ++ "h.test" ++ "/s")
        (collectPairs (queryPairsChars ("wd=a" : String).data))
        (some c6rule.base_url)) :=
  ⟨by decide, by decide,
    c6_post_request c6rule "a"
      { scheme := "http", host := some "h.test", port := some 8080,
        path := "/s", query := some "wd=a" } (by decide) (by decide)⟩

/-- C1 counterexample: with two rules and the legitimate interleaving in
which both tasks increment before either sends, the emitted `completed`
values are `[2, 1]` — not the strictly increasing `1, 2` the claim
requires, and the event before `Done` does not carry `completed = total`. -/
theorem c1_counterexample :
    validSchedB 2 schedSwap = true ∧
    completedValues (execute_parallel_search rules2 resultsOk2 true schedSwap).events =
      [2, 1] ∧
    [2, 1] ≠ List.range' 1 2 := by decide

/-- C1 (amended): for every outcome assignment and well-formed interleaving
with the receiver alive, the event sequence is exactly one `Init{total}`
first, one `Done` last, and `total` intervening `Progress`/`Result` events
(each carrying `progress.total = total`), whose `completed` values are a
permutation of `1..total` — each value once, but not necessarily in
increasing emission order, because the counter increment and the channel
send are separate atomic steps. -/
theorem c1_event_sequence (rules : List Rule) (results : List PlatformSearchResult)
    (sched : List Act)
    (hres : results.length = rules.length)
    (hv : validSchedB rules.length sched = true) :
    ∃ mid, (execute_parallel_search rules results true sched).events =
        StreamEvent.init rules.length :: mid ++ [StreamEvent.done] ∧
      mid.length = rules.length ∧
      (∀ e ∈ mid, isMidEvent e = true ∧ eventTotal e = some rules.length) ∧
      (completedValues mid).Perm (List.range' 1 rules.length) :=
  execute_parallel_search_events rules results sched hres hv

/-- C1 witness: the two-rule sequential interleaving. -/
theorem c1_event_sequence_witness :
    resultsOk2.length = rules2.length ∧
    validSchedB rules2.length schedSeq = true ∧
    ∃ mid, (execute_parallel_search rules2 resultsOk2 true schedSeq).events =
        StreamEvent.init rules2.length :: mid ++ [StreamEvent.done] ∧
      mid.length = rules2.length ∧
      (∀ e ∈ mid, isMidEvent e = true ∧ eventTotal e = some rules2.length) ∧
      (completedValues mid).Perm (List.range' 1 rules2.length) :=
  ⟨by decide, by decide, c1_event_sequence rules2 resultsOk2 schedSeq (by decide) (by decide)⟩

/-- C9: a rule whose search failed yields a `Result` event with its rule's
name, non-null `error` and `color = "red"`, with `progress.total` still the
rule count; every rule still contributes its own event, built from its own
rule and outcome only; and `Done` is still emitted last. -/
theorem c9_failed_rule_isolated (rules : List Rule)
    (results : List PlatformSearchResult) (sched : List Act) (j : Nat)
    (rule : Rule) (res : PlatformSearchResult) (msg : String)
    (hres : results.length = rules.length)
    (hv : validSchedB rules.length sched = true)
    (hjr : rules[j]? = some rule)
    (hjres : results[j]? = some res)
    (herr : res.error = some msg) :
    (∃ cur, StreamEvent.result { completed := cur, total := rules.length }
        { name := rule.name, color := "red", tags := rule.tags,
          items := res.items, error := some msg } ∈
        (execute_parallel_search rules results true sched).events) ∧
    (execute_parallel_search rules results true sched).events.getLast? =
      some StreamEvent.done ∧
    (∀ (k : Nat) (rk : Rule) (resk : PlatformSearchResult),
      rules[k]? = some rk → results[k]? = some resk →
      ∃ curk, mkTaskEvent rk resk curk rules.length ∈
        (execute_parallel_search rules results true sched).events) := by
  obtain ⟨hv1, hv2⟩ := validSchedB_spec rules.length sched hv
  have hev : (execute_parallel_search rules results true sched).events =
      StreamEvent.init rules.length ::
        runTasks rules results rules.length sched 0 (fun _ => none) ++
        [StreamEvent.done] := by
    simp [execute_parallel_search]
  have hmemrun : ∀ (k : Nat) (rk : Rule) (resk : PlatformSearchResult),
      rules[k]? = some rk → results[k]? = some resk →
      ∃ curk, mkTaskEvent rk resk curk rules.length ∈
        runTasks rules results rules.length sched 0 (fun _ => none) := by
    intro k rk resk hk1 hk2
    have hklt : k < rules.length := by
      obtain ⟨hlt, _⟩ := List.getElem?_eq_some.mp hk1
      exact hlt
    have hsmem : Act.send k ∈ sched := by
      apply List.count_pos_iff.mp
      rw [(hv1 k hklt).2.1]
      omega
    exact runTasks_mem rules results rules.length sched 0 (fun _ => none)
      k rk resk (sendsSafe_init rules results sched hres hv) hsmem hk1 hk2
  refine ⟨?_, ?_, ?_⟩
  · obtain ⟨cur, hcur⟩ := hmemrun j rule res hjr hjres
    refine ⟨cur, ?_⟩
    rw [hev]
    have hmk : mkTaskEvent rule res cur rules.length =
        StreamEvent.result { completed := cur, total := rules.length }
          { name := rule.name, color := "red", tags := rule.tags,
            items := res.items, error := some msg } := by
      unfold mkTaskEvent
      rw [herr]
      simp
    rw [← hmk]
    exact List.mem_append.mpr (Or.inl (List.mem_cons_of_mem _ hcur))
  · rw [hev]
    exact List.getLast?_concat _
  · intro k rk resk hk1 hk2
    obtain ⟨curk, hcurk⟩ := hmemrun k rk resk hk1 hk2
    refine ⟨curk, ?_⟩
    rw [hev]
    exact List.mem_append.mpr (Or.inl (List.mem_cons_of_mem _ hcurk))

/-- C9 witness: two rules, the second of which failed with `"boom"`. -/
theorem c9_failed_rule_isolated_witness :
    resultsErr2.length = rules2.length ∧
    validSchedB rules2.length schedSeq = true ∧
    rules2[1]? = some (testRule "s1" "https://b.test/s?wd=@keyword" "https://b.test" false "" "") ∧
    resultsErr2[1]? = some (PlatformSearchResult.with_error "boom") ∧
    ((∃ cur, StreamEvent.result { completed := cur, total := rules2.length }
        { name := (testRule "s1" "https://b.test/s?wd=@keyword" "https://b.test" false "" "").name,
          color := "red",
          tags := (testRule "s1" "https://b.test/s?wd=@keyword" "https://b.test" false "" "").tags,
          items := (PlatformSearchResult.with_error "boom").items,
          error := some "boom" } ∈
        (execute_parallel_search rules2 resultsErr2 true schedSeq).events) ∧
      (execute_parallel_search rules2 resultsErr2 true schedSeq).events.getLast? =
        some StreamEvent.done ∧
      (∀ (k : Nat) (rk : Rule) (resk : PlatformSearchResult),
        rules2[k]? = some rk → resultsErr2[k]? = some resk →
        ∃ curk, mkTaskEvent rk resk curk rules2.length ∈
          (execute_parallel_search rules2 resultsErr2 true schedSeq).events)) :=
  ⟨by decide, by decide, by decide, by decide,
    c9_failed_rule_isolated rules2 resultsErr2 schedSeq 1
      (testRule "s1" "https://b.test/s?wd=@keyword" "https://b.test" false "" "")
      (PlatformSearchResult.with_error "boom") "boom"
      (by decide) (by decide) (by decide) (by decide) (by decide)⟩

/-- C10: when even the `Init` send fails because the receiver is already
gone, the orchestrator returns at once: no task is spawned and no event —
`Done` included — is produced. -/
theorem c10_receiver_gone_at_init (rules : List Rule)
    (results : List PlatformSearchResult) (sched : List Act) :
    (execute_parallel_search rules results false sched).events = [] ∧
    (execute_parallel_search rules results false sched).spawned = 0 := by
  simp [execute_parallel_search]

example : normalize_xpath "//div/a" = "//div/a" := by decide
example : normalize_xpath "./div/a" = "./div/a" := by decide
example : normalize_xpath "div/a" = ".//div/a" := by decide
example : normalize_xpath "/div" = "//div" := by decide
example : normalize_url "/video/123" "https://example.com" = "https://example.com/video/123" := by decide
example : normalize_url "//cdn.example.com/img.jpg" "https://example.com" = "https://cdn.example.com/img.jpg" := by decide
example : normalize_url "https://other.com/page" "https://example.com" = "https://other.com/page" := by decide
